import Mathlib

/-!
Verification development for the repository-selection and temporal-mining
core of the `kaggle-stylometry` program (`src/repository_selector.py` and
`src/analyze_temportal_patterns.py`).

The Python code mixes pure data manipulation with external effects
(subprocess invocations of git, filesystem checks).  The shallow embedding
below keeps the pure logic literal and threads the external effects as
explicit oracle parameters:

* results of `git log` / `git blame` / `git show` subprocess calls are
  supplied as values (an `Option` models a failed invocation, i.e. a
  non-zero return code or a raised `CalledProcessError`);
* `Path.exists()` is a boolean oracle;
* Python `float` arithmetic is modelled with exact rationals (`ℚ`);
  Python `int` with `Int`/`Nat`.
-/

namespace Stylometry

/-! ## Python string primitives

The embedding works on a string's character list (`String.data`) with
plain structural recursion, mirroring the per-character semantics of the
Python `str` operations used by the code. -/

/-- Helper for character-separator splitting: `cur` is the (reversed)
chunk being accumulated. -/
def splitOnCharAux (c : Char) : List Char → List Char → List (List Char)
  | [], cur => [cur.reverse]
  | a :: as, cur =>
    if a = c then cur.reverse :: splitOnCharAux c as []
    else splitOnCharAux c as (a :: cur)

/-- Python `s.split(c)` for a one-character separator: every occurrence
splits, adjacent/leading/trailing occurrences produce empty chunks, and
`"".split(c) == [""]`. -/
def splitOnChar (c : Char) (s : String) : List String :=
  (splitOnCharAux c s.data []).map String.mk

/-- Python `s.split("\n")`. -/
def pySplitNl (s : String) : List String :=
  splitOnChar '\n' s

/-- Python `s.splitlines()` restricted to `"\n"` terminators: the empty
string yields no lines, and a trailing newline does not produce a trailing
empty chunk. -/
def pySplitlines (s : String) : List String :=
  if s.data = [] then []
  else if s.data.getLastD ' ' = '\n' then (pySplitNl s).dropLast
  else pySplitNl s

/-- Python `s.split(" ", 1)` unpacked into the chunk before the first space
and the remainder (the remainder is `""` when no space occurs). -/
def pySplit1 (s : String) : String × String :=
  (String.mk (s.data.takeWhile (fun c => c ≠ ' ')),
    String.mk ((s.data.dropWhile (fun c => c ≠ ' ')).drop 1))

/-- Python `line.split("/")[-1]`: the final slash-separated component. -/
def pyLastSlashComponent (line : String) : String :=
  (splitOnChar '/' line).getLastD ""

/-- Python `s.startswith(pre)`. -/
def strStarts (s pre : String) : Bool :=
  List.isPrefixOf pre.data s.data

/-- Whether `pat` occurs as a contiguous run inside `l`. -/
def listHasRun (pat : List Char) : List Char → Bool
  | [] => List.isPrefixOf pat []
  | a :: as => List.isPrefixOf pat (a :: as) || listHasRun pat as

/-- Python `"/dev/null" in line`: substring containment. -/
def hasDevNull (line : String) : Bool :=
  listHasRun "/dev/null".data line.data

/-- Python `s.strip()`: remove leading and trailing whitespace. -/
def pyStrip (s : String) : String :=
  String.mk
    (((s.data.dropWhile Char.isWhitespace).reverse.dropWhile Char.isWhitespace).reverse)

/-- Python `s.lstrip()`-style drop of the first `n` characters,
`s[n:]`. -/
def pyDrop (s : String) (n : Nat) : String :=
  String.mk (s.data.drop n)

/-- Python `"\n".join(lines)`. -/
def joinNl : List String → String
  | [] => ""
  | [s] => s
  | s :: rest => s ++ "\n" ++ joinNl rest

/-- Python string `<=`: lexicographic comparison by code point. -/
def lexLe : List Char → List Char → Bool
  | [], _ => true
  | _ :: _, [] => false
  | a :: as, b :: bs => if a = b then lexLe as bs else decide (a < b)

/-! ## Data model (`repository_selector.py`) -/

/-- One element of a repository's `contribution_files` list:
`{"path": ..., "contribution_percentage": ...}`. -/
structure ContributionFile where
  path : String
  contribution_percentage : ℚ
deriving DecidableEq, Repr, Inhabited

/-- The stats dictionary produced by `_get_repository_stats`.  The Python
code stores `first_commit`/`last_commit` as ISO strings of the
corresponding timestamps and parses them back before scoring; the embedding
keeps the underlying epoch-second timestamps. -/
structure RepoStats where
  first_commit : Int
  last_commit : Int
  commit_count : Nat
  commits_per_day : ℚ
  active_days : Int
deriving DecidableEq, Repr, Inhabited

/-- A record of `_analyze_repositories`' output list:
`{"name": ..., "stats": ..., "contribution_files": ...}`. -/
structure RepoRecord where
  name : String
  stats : RepoStats
  contribution_files : List ContributionFile
deriving DecidableEq, Repr, Inhabited

/-- One element of `report_data["contributors"]`:
`{"repo": ..., "contributors": [...]}`. -/
structure ContributorsEntry where
  repo : String
  contributors : List String
deriving DecidableEq, Repr, Inhabited

/-- One value of the selector's `repo_metadata` dictionary.  `stats = none`
models the empty stats dictionary `{}` (the `stats or {}` fallback). -/
structure RepoMetadata where
  contribution_files : List ContributionFile
  stats : Option RepoStats
deriving DecidableEq, Repr, Inhabited

/-! ## `RepositorySelector._get_file_author_stats` -/

/-- The author names extracted from the blame stdout: for each line that
starts with `"author "`, the line with that first occurrence removed
(`line.replace('author ', '', 1)`; since the line starts with the pattern,
the first occurrence is the 7-character prefix, so the replacement is
`line.drop 7`). -/
def blamedAuthors (stdoutLines : List String) : List String :=
  (stdoutLines.filter (fun l => strStarts l "author ")).map (fun l => pyDrop l 7)

/-- Python `dict`/`Counter` key order: first-occurrence order of the
underlying sequence, each key once (the insertion-order accumulation of
dictionary keys). -/
def pyKeys (l : List String) : List String :=
  l.foldl (fun acc x => if x ∈ acc then acc else acc ++ [x]) []

/-- `RepositorySelector._get_file_author_stats`.  `blameOk` is the success
of the `git blame --porcelain` subprocess (`returncode == 0`); `stdout` is
its captured standard output.  Returns the association list (in Python
dict key order) from author name to percentage of blamed lines. -/
def getFileAuthorStats (blameOk : Bool) (stdout : String) : List (String × ℚ) :=
  if !blameOk then []
  else
    let authors := blamedAuthors (pySplitNl stdout)
    let totalLines := authors.length
    if totalLines = 0 then []
    else (pyKeys authors).map (fun a => (a, ((authors.count a : ℚ) / (totalLines : ℚ)) * 100))

/-! ## `RepositorySelector._get_repository_stats` -/

/-- `RepositorySelector._get_repository_stats`.  `gitOk` is the success of
the `git log --format=%at` subprocess, `localTs` the parsed timestamps of
its stdout, `feedTs` the timestamps of the `repo_commits` feed entries
(appended after the local ones, exactly as the Python loop does).
`Int.fdiv` matches Python's floor semantics of `timedelta.days`. -/
def getRepositoryStats (gitOk : Bool) (localTs feedTs : List Int) : Option RepoStats :=
  if !gitOk then none
  else
    match localTs ++ feedTs with
    | [] => none
    | t :: rest =>
      let firstC := rest.foldl min t
      let lastC := rest.foldl max t
      let commitCount := (localTs ++ feedTs).length
      let timePeriod := Int.fdiv (lastC - firstC) 86400 + 1
      some
        { first_commit := firstC
          last_commit := lastC
          commit_count := commitCount
          commits_per_day := (commitCount : ℚ) / ((max timePeriod 1 : Int) : ℚ)
          active_days := timePeriod }

/-! ## `RepositorySelector._select_best_repositories` -/

/-- The per-repository score of `_select_best_repositories`, as a function
of the quantities it reads: `daysSince` is
`(datetime.now() - last_commit).days`, the rest come from the repository
record. -/
def scoreFromParts (daysSince : Int) (commitCount : Nat) (commitsPerDay : ℚ)
    (files : List ContributionFile) : ℚ :=
  max 0 (35 - (daysSince : ℚ) / 30) +
    min 35 ((commitCount : ℚ) * 2 + commitsPerDay * 10) +
    (if files ≠ [] then
      min 30 ((files.length : ℚ) * 2 +
        ((files.map (fun f => f.contribution_percentage)).sum / (files.length : ℚ)) / 5)
    else min 15 ((commitCount : ℚ) / 2))

/-- The `analysis_score` attached to a repository record, with `now` the
epoch-second value of `datetime.now()`; `(now - last_commit).days` floors. -/
def analysisScore (now : Int) (r : RepoRecord) : ℚ :=
  scoreFromParts (Int.fdiv (now - r.stats.last_commit) 86400)
    r.stats.commit_count r.stats.commits_per_day r.contribution_files

/-- `RepositorySelector._select_best_repositories`: score every record,
sort descending by score (Python's stable sort with `reverse=True`,
modelled by a stable insertion sort on the reversed comparison) and take
the best `maxRepos`. -/
def selectBestRepositories (now : Int) (repositories : List RepoRecord)
    (maxRepos : Nat) : List RepoRecord :=
  if repositories = [] then []
  else
    (List.insertionSort (fun a b => analysisScore now b ≤ analysisScore now a)
      repositories).take maxRepos

/-! ## `RepositorySelector._get_only_owner_sources` and
`RepositorySelector.select_repositories` -/

/-- `RepositorySelector._get_only_owner_sources`.  The comprehension
evaluates `obj["contributors"][0]` for every entry before the length test:
an empty contributor list raises `IndexError`, modelled by `Except.error`. -/
def getOnlyOwnerSources (username : String) :
    List ContributorsEntry → Except String (List String)
  | [] => .ok []
  | obj :: rest =>
    match obj.contributors.head? with
    | none => .error "IndexError: list index out of range"
    | some firstContributor =>
      match getOnlyOwnerSources username rest with
      | .error e => .error e
      | .ok tail =>
        .ok (if firstContributor = username ∧ obj.contributors.length = 1 then
              obj.repo :: tail
            else tail)

/-- The external effects `select_repositories` depends on, threaded as
oracles: `pathExists` models `repo_path.exists()` for the lazily handled
single-contributor repositories, `statsOracle` the outcome of the lazy
`_get_repository_stats` call (`none` = the empty dict), `contribOracle`
the outcome of the lazy `_analyze_contribution_files` call. -/
structure SelectorEnv where
  now : Int
  pathExists : String → Bool
  statsOracle : String → Option RepoStats
  contribOracle : String → List ContributionFile

/-- `RepositorySelector.select_repositories`, parametrised over `analyzed`,
the output of `_analyze_repositories` (a subprocess-heavy scan of the local
checkouts).  Returns the selected name set together with the
`repo_metadata` association list, or propagates the `IndexError` of
`_get_only_owner_sources`. -/
def selectRepositories (env : SelectorEnv) (username : String)
    (analyzed : List RepoRecord) (contributors : List ContributorsEntry) :
    Except String (Finset String × List (String × RepoMetadata)) :=
  let selected := selectBestRepositories env.now analyzed 15
  let selectedNames : Finset String := (selected.map (fun r => r.name)).toFinset
  match getOnlyOwnerSources username contributors with
  | .error e => .error e
  | .ok singleContributorRepos =>
    let allRepoNames := selectedNames ∪ singleContributorRepos.toFinset
    let metaScored : List (String × RepoMetadata) :=
      selected.map (fun r =>
        (r.name, { contribution_files := r.contribution_files, stats := some r.stats }))
    let metaAll : List (String × RepoMetadata) :=
      singleContributorRepos.foldl
        (fun m repoName =>
          if (m.lookup repoName).isNone ∧ env.pathExists repoName then
            m ++ [(repoName,
              { contribution_files := env.contribOracle repoName
                stats := env.statsOracle repoName })]
          else m)
        metaScored
    .ok (allRepoNames, metaAll)

/-! ## `analyze_temportal_patterns._clean_diff` -/

/-- One iteration of the `_clean_diff` line loop, appending to the
accumulated cleaned lines. -/
def cleanDiffStep (acc : List String) (line : String) : List String :=
  if strStarts line "diff --git" || strStarts line "index " ||
      strStarts line "new file mode " || strStarts line "deleted file mode " then
    acc
  else if strStarts line "--- " || strStarts line "+++ " then
    if hasDevNull line then acc else acc ++ [pyLastSlashComponent line]
  else if strStarts line "@@ " || strStarts line "+" || strStarts line "-" ||
      strStarts line " " then
    acc ++ [line]
  else acc

/-- `analyze_temportal_patterns._clean_diff`. -/
def cleanDiff (diffOutput : String) : String :=
  joinNl ((pySplitNl diffOutput).foldl cleanDiffStep [])

/-! ## `analyze_temportal_patterns._get_commit_contents` -/

/-- The `commits_to_process` key-commit choice for one file: the raw
`"sha date"` history lines at the first, middle (history longer than 4) and
last (history longer than 1) positions of the chronological
(`git log --reverse`) history. -/
def commitsToProcess (history : List String) : List String :=
  (if history.length > 0 then [history.headD ""] else []) ++
    (if history.length > 4 then [history.getD (history.length / 2) ""] else []) ++
      (if history.length > 1 then [history.getLastD ""] else [])

/-- The git subprocess results `_get_commit_contents` consumes for one
repository checkout, as oracles over (file path, sha): `showDiff` is
`git show --format= sha -- file`, `showFile` is `git show sha:file`;
`none` models a raised `CalledProcessError`. -/
structure GitOracle where
  showDiff : String → String → Option String
  showFile : String → String → Option String

/-- One `commit_data` dictionary of `_get_commit_contents`.  `content` is
present only when the fetched file content was truthy (Python
`if file_content:` drops the empty string). -/
structure CommitData where
  sha : String
  date : String
  file : String
  changes : String
  content : Option String
deriving DecidableEq, Repr, Inhabited

/-- The guarded body of the per-commit loop of `_get_commit_contents`:
`none` models a `continue` (a failed `git show`, an oversized raw diff, an
empty cleaned diff, or a failed content fetch — `prev_content` unchanged in
each), `some (cd, prev')` the append of `cd` together with the
`prev_content` after the iteration.  `content` is attached only when the
fetched file content is truthy (Python `if file_content:`); a full content
fetch happens when `prev_content` is still `None` (the first surviving
commit, which also sets `prev_content`) or when the commit is
`commits_to_process[-1]`. -/
def commitStep (g : GitOracle) (maxDiffLines : Nat) (filePath : String)
    (ctpLast : String) (prevContent : Option String) (commitInfo : String) :
    Option (CommitData × Option String) :=
  let sha := (pySplit1 commitInfo).1
  let date := (pySplit1 commitInfo).2
  match g.showDiff filePath sha with
  | none => none
  | some diffOutput =>
    if (pySplitlines diffOutput).length > maxDiffLines then none
    else if pyStrip (cleanDiff diffOutput) = "" then none
    else
      match prevContent with
      | none =>
        match g.showFile filePath sha with
        | none => none
        | some fileContent =>
          some ({ sha := sha, date := date, file := filePath
                  changes := cleanDiff diffOutput
                  content := if fileContent ≠ "" then some fileContent else none },
            some fileContent)
      | some _ =>
        if commitInfo = ctpLast then
          match g.showFile filePath sha with
          | none => none
          | some fileContent =>
            some ({ sha := sha, date := date, file := filePath
                    changes := cleanDiff diffOutput
                    content := if fileContent ≠ "" then some fileContent else none },
              prevContent)
        else
          some ({ sha := sha, date := date, file := filePath
                  changes := cleanDiff diffOutput
                  content := none },
            prevContent)

/-- The loop body of `_get_commit_contents` on the state
`(prev_content, commits)`. -/
def processCommit (g : GitOracle) (maxDiffLines : Nat) (filePath : String)
    (ctpLast : String) (st : Option String × List CommitData) (commitInfo : String) :
    Option String × List CommitData :=
  match commitStep g maxDiffLines filePath ctpLast st.1 commitInfo with
  | none => st
  | some (cd, prevAfter) => (prevAfter, st.2 ++ [cd])

/-- The per-file part of `_get_commit_contents`: fold the loop body over
`commits_to_process`, starting from `prev_content = None` and an empty
commit list. -/
def sampleFile (g : GitOracle) (maxDiffLines : Nat) (filePath : String)
    (history : List String) : List CommitData :=
  let ctp := commitsToProcess history
  (ctp.foldl (processCommit g maxDiffLines filePath (ctp.getLastD "")) (none, [])).2

/-- One core file together with its `git log --format=%H %ad --date=iso
--reverse -- file` history lines. -/
structure FileHist where
  path : String
  history : List String
deriving DecidableEq, Repr, Inhabited

/-- The repository-level commit list of `_get_commit_contents`: the
concatenation of all per-file samples, sorted by the `date` string
(Python's stable `list.sort(key=...)`, modelled by stable insertion sort). -/
def repoCommits (g : GitOracle) (maxDiffLines : Nat) (files : List FileHist) :
    List CommitData :=
  List.insertionSort (fun a b => lexLe a.date.data b.date.data = true)
    ((files.map (fun fh => sampleFile g maxDiffLines fh.path fh.history)).flatten)

/-- The `commits_by_file` grouping: iterating the sorted commit list and
appending each record to its file's bucket yields, for each file, the
subsequence of the sorted list carrying that file. -/
def commitsByFile (g : GitOracle) (maxDiffLines : Nat) (files : List FileHist)
    (f : String) : List CommitData :=
  (repoCommits g maxDiffLines files).filter (fun cd => cd.file = f)

/-- A concrete five-commit file history whose author dates are not
monotone along the log order (the middle commit is dated after the last
one), for exercising the date sort of `_get_commit_contents`. -/
def historyC : List String :=
  ["s0 2020-01-01", "s1 2020-02-01", "s2 2023-01-01", "s3 2020-03-01",
    "s4 2021-01-01"]

/-- The same five-commit history with monotone author dates. -/
def historyS : List String :=
  ["s0 2020-01-01", "s1 2020-02-01", "s2 2020-06-01", "s3 2020-07-01",
    "s4 2021-01-01"]

/-- A concrete git oracle: every diff is the one-line addition `"+a"`,
every content fetch yields `"X"`. -/
def gC : GitOracle :=
  { showDiff := fun _ _ => some "+a"
    showFile := fun _ _ => some "X" }

/-! ## `analyze_temportal_patterns._select_best_targets` -/

/-- One entry of `sources_data`, reduced to the fields
`_select_best_targets` reads (`repo_data["file_stats"]["file_count"]`). -/
structure SourceRepo where
  name : String
  file_count : Nat
deriving DecidableEq, Repr, Inhabited

/-- `analyze_temportal_patterns._select_best_targets`: keep the
repositories whose commit-feed entry has at least 5 records and whose
reported file count is at least 10.  `commits` maps a repository name to
its feed entries' timestamps (`commits.get(repo_name, [])`). -/
def selectBestTargets (sources : List SourceRepo) (commits : String → List Int) :
    List String :=
  sources.foldl
    (fun acc r =>
      if (commits r.name).length < 5 ∨ r.file_count < 10 then acc
      else acc ++ [r.name])
    []

/-! ## `analyze_temportal_patterns._analyze_activity_patterns`

Commit datetimes are modelled as epoch seconds (`Nat`); the feed dates all
carry the UTC offset `+00:00`, so `t.hour = t % 86400 / 3600` and datetime
ordering is timestamp ordering.  Python `float` arithmetic (the
`round(..., 2)` of `commits_per_day`, the `* 0.1` share threshold and the
gap means) is modelled by exact rationals. -/

/-- `datetime.hour` of an epoch-second timestamp. -/
def hourOf (t : Nat) : Nat :=
  t % 86400 / 3600

/-- Python `Counter` key order over `Nat` values: first-occurrence order. -/
def pyKeysNat (l : List Nat) : List Nat :=
  l.foldl (fun acc x => if x ∈ acc then acc else acc ++ [x]) []

/-- Python `max(iterable, key=f)`: the first element attaining the maximal
key, `0` standing in for the empty-iterable error case (never reached on a
nonempty hour list). -/
def pyMaxBy (f : Nat → Nat) : List Nat → Nat
  | [] => 0
  | k :: ks => ks.foldl (fun acc x => if f x > f acc then x else acc) k

/-- `peak_hour`: the first most frequent hour, over the `Counter` of the
hour list (`hours` is built after the sort, so key order follows the
sorted timestamps). -/
def peakHour (sortedHours : List Nat) : Nat :=
  pyMaxBy (fun h => sortedHours.count h) (pyKeysNat sortedHours)

/-- The hour-of-day list drawn from the sorted timestamps (`Counter([t.hour
for t in commit_times])` is built after `commit_times.sort()`). -/
def sortedHoursOf (ts : List Nat) : List Nat :=
  (List.insertionSort (fun a b => a ≤ b) ts).map hourOf

/-- The `elif` chain mapping the peak hour to a timezone hint. -/
def tzHintOfPeak (peakH : Nat) : String :=
  if 4 ≤ peakH ∧ peakH ≤ 8 then "UTC+8 to UTC+10"
  else if 8 ≤ peakH ∧ peakH ≤ 12 then "UTC+0 to UTC+2"
  else if 12 ≤ peakH ∧ peakH ≤ 16 then "UTC-6 to UTC-4"
  else if 16 ≤ peakH ∧ peakH ≤ 20 then "UTC-12 to UTC-8"
  else "unclear"

/-- Two-digit hour rendering, Python `f"{h:02d}"` for `h < 100`. -/
def pad2 (n : Nat) : String :=
  if n < 10 then "0" ++ toString n else toString n

/-- The `frequency` sub-dictionary of the activity-pattern result
(`commits_per_day` kept unrounded: `round(x, 2)` acts on floats and is not
modelled). -/
structure ActivityFrequency where
  commits_per_day : ℚ
  active_hours : List String
  timezone_hint : String
deriving DecidableEq, Repr, Inhabited

/-- The `burst_patterns` sub-dictionary of the activity-pattern result. -/
structure BurstPatterns where
  intensity : String
  average_duration : String
  frequency : String
deriving DecidableEq, Repr, Inhabited

/-- The full `_analyze_activity_patterns` result. -/
structure ActivityPatterns where
  frequency : ActivityFrequency
  burst_patterns : BurstPatterns
deriving DecidableEq, Repr, Inhabited

/-- `Counter.most_common(3)`: items sorted by count descending (stable over
first-occurrence key order), first three. -/
def mostCommon3 (sortedHours : List Nat) : List Nat :=
  (List.insertionSort
    (fun a b => sortedHours.count b ≤ sortedHours.count a)
    (pyKeysNat sortedHours)).take 3

/-- `analyze_temportal_patterns._analyze_activity_patterns`. -/
def analyzeActivityPatterns (commitTimes : List Nat) : ActivityPatterns :=
  if commitTimes = [] then
    { frequency :=
        { commits_per_day := 0, active_hours := [], timezone_hint := "unknown" }
      burst_patterns :=
        { intensity := "low", average_duration := "n/a", frequency := "sporadic" } }
  else
    let sorted := List.insertionSort (fun a b => a ≤ b) commitTimes
    let daysSpan :=
      if (sorted.getLastD 0 - sorted.headD 0) / 86400 = 0 then 1
      else (sorted.getLastD 0 - sorted.headD 0) / 86400
    let commitsPerDay : ℚ := (commitTimes.length : ℚ) / (daysSpan : ℚ)
    let hoursList := sortedHoursOf commitTimes
    let activeHours :=
      ((mostCommon3 hoursList).filter
        (fun h => (hoursList.count h : ℚ) > (commitTimes.length : ℚ) * (1 / 10))).map
        (fun h => pad2 h ++ "-" ++ pad2 (h + 1))
    let tzHint := tzHintOfPeak (peakHour hoursList)
    let timeDiffs : List ℚ :=
      (List.range (sorted.length - 1)).map
        (fun i => ((sorted.getD (i + 1) 0 : ℚ) - (sorted.getD i 0 : ℚ)) / 3600)
    let burst :=
      if timeDiffs ≠ [] then
        let avgDiff := timeDiffs.sum / (timeDiffs.length : ℚ)
        { intensity :=
            if avgDiff < 1 then "high" else if avgDiff < 4 then "moderate" else "low"
          average_duration :=
            if avgDiff < 4 then "few hours"
            else if avgDiff < 24 then "day-length" else "multi-day"
          frequency :=
            if commitsPerDay > 3 then "frequent"
            else if commitsPerDay > 1 then "regular" else "sporadic" }
      else
        ({ intensity := "low", average_duration := "n/a", frequency := "sporadic" } :
          BurstPatterns)
    { frequency :=
        { commits_per_day := commitsPerDay, active_hours := activeHours
          timezone_hint := tzHint }
      burst_patterns := burst }

/-! ## Spec-side rendering of the timezone-band table (for the refinement
claim about the timezone heuristic) -/

/-- Modelled from the spec's wording: the four fixed coarse UTC-offset
bands, in the listed order (04–08, 08–12, 12–16, 16–20 with their
labels). -/
def specTzBands : List (Nat × Nat × String) :=
  [(4, 8, "UTC+8 to UTC+10"), (8, 12, "UTC+0 to UTC+2"),
    (12, 16, "UTC-6 to UTC-4"), (16, 20, "UTC-12 to UTC-8")]

/-- Modelled from the spec's wording: the hint of a peak hour is the label
of the first listed band containing it, `"unclear"` when no band does. -/
def claimTimezoneBand (p : Nat) : String :=
  match specTzBands.find? (fun b => decide (b.1 ≤ p ∧ p ≤ b.2.1)) with
  | some b => b.2.2
  | none => "unclear"

/-! ## General lemmas -/

theorem keysFold_mem {α : Type} [DecidableEq α] (l : List α) : ∀ (acc : List α) (a : α),
    a ∈ l.foldl (fun acc x => if x ∈ acc then acc else acc ++ [x]) acc ↔
      a ∈ acc ∨ a ∈ l := by
  induction l with
  | nil => simp
  | cons x xs ih =>
    intro acc a
    simp only [List.foldl_cons]
    by_cases hx : x ∈ acc
    · rw [if_pos hx, ih]
      constructor
      · rintro (h | h)
        · exact Or.inl h
        · exact Or.inr (List.mem_cons_of_mem _ h)
      · rintro (h | h)
        · exact Or.inl h
        · rcases List.mem_cons.mp h with rfl | h2
          · exact Or.inl hx
          · exact Or.inr h2
    · rw [if_neg hx, ih]
      simp only [List.mem_append, List.mem_singleton, List.mem_cons]
      tauto

theorem keysFold_nodup {α : Type} [DecidableEq α] (l : List α) : ∀ (acc : List α),
    acc.Nodup →
    (l.foldl (fun acc x => if x ∈ acc then acc else acc ++ [x]) acc).Nodup := by
  induction l with
  | nil => intro acc h; exact h
  | cons x xs ih =>
    intro acc h
    simp only [List.foldl_cons]
    by_cases hx : x ∈ acc
    · rw [if_pos hx]
      exact ih acc h
    · rw [if_neg hx]
      refine ih _ ?_
      simp [List.nodup_append, h, hx]

theorem pyKeys_mem (l : List String) (a : String) : a ∈ pyKeys l ↔ a ∈ l := by
  rw [pyKeys, keysFold_mem]
  simp

theorem pyKeys_nodup (l : List String) : (pyKeys l).Nodup :=
  keysFold_nodup l [] List.nodup_nil

theorem foldlMin_mem (l : List Int) (t : Int) : l.foldl min t ∈ t :: l := by
  induction l generalizing t with
  | nil => simp
  | cons b l ih =>
    simp only [List.foldl_cons]
    rcases List.mem_cons.mp (ih (min t b)) with h1 | h1
    · rw [h1]
      rcases min_choice t b with h2 | h2 <;> rw [h2]
      · exact List.mem_cons_self _ _
      · exact List.mem_cons_of_mem _ (List.mem_cons_self _ _)
    · exact List.mem_cons_of_mem _ (List.mem_cons_of_mem _ h1)

theorem foldlMin_le (l : List Int) : ∀ (t x : Int), x ∈ t :: l → l.foldl min t ≤ x := by
  induction l with
  | nil =>
    intro t x hx
    simp only [List.mem_singleton] at hx
    simp [hx]
  | cons b l ih =>
    intro t x hx
    simp only [List.foldl_cons]
    have hs := ih (min t b) (min t b) (List.mem_cons_self _ _)
    rcases List.mem_cons.mp hx with rfl | hx2
    · exact le_trans hs (min_le_left _ _)
    · rcases List.mem_cons.mp hx2 with rfl | hx3
      · exact le_trans hs (min_le_right _ _)
      · exact ih (min t b) x (List.mem_cons_of_mem _ hx3)

theorem foldlMax_mem (l : List Int) (t : Int) : l.foldl max t ∈ t :: l := by
  induction l generalizing t with
  | nil => simp
  | cons b l ih =>
    simp only [List.foldl_cons]
    rcases List.mem_cons.mp (ih (max t b)) with h1 | h1
    · rw [h1]
      rcases max_choice t b with h2 | h2 <;> rw [h2]
      · exact List.mem_cons_self _ _
      · exact List.mem_cons_of_mem _ (List.mem_cons_self _ _)
    · exact List.mem_cons_of_mem _ (List.mem_cons_of_mem _ h1)

theorem le_foldlMax (l : List Int) : ∀ (t x : Int), x ∈ t :: l → x ≤ l.foldl max t := by
  induction l with
  | nil =>
    intro t x hx
    simp only [List.mem_singleton] at hx
    simp [hx]
  | cons b l ih =>
    intro t x hx
    simp only [List.foldl_cons]
    have hs := ih (max t b) (max t b) (List.mem_cons_self _ _)
    rcases List.mem_cons.mp hx with rfl | hx2
    · exact le_trans (le_max_left _ _) hs
    · rcases List.mem_cons.mp hx2 with rfl | hx3
      · exact le_trans (le_max_right _ _) hs
      · exact ih (max t b) x (List.mem_cons_of_mem _ hx3)

theorem selectBestTargets_eq (sources : List SourceRepo) (commits : String → List Int) :
    selectBestTargets sources commits =
      (sources.filter
        (fun r => decide (5 ≤ (commits r.name).length ∧ 10 ≤ r.file_count))).map
        (fun r => r.name) := by
  have aux : ∀ (src : List SourceRepo) (acc : List String),
      src.foldl
        (fun acc r =>
          if (commits r.name).length < 5 ∨ r.file_count < 10 then acc
          else acc ++ [r.name]) acc =
      acc ++ (src.filter
        (fun r => decide (5 ≤ (commits r.name).length ∧ 10 ≤ r.file_count))).map
        (fun r => r.name) := by
    intro src
    induction src with
    | nil => intro acc; simp
    | cons r rest ih =>
      intro acc
      simp only [List.foldl_cons]
      by_cases h : (commits r.name).length < 5 ∨ r.file_count < 10
      · rw [if_pos h, ih]
        have hneg : ¬(5 ≤ (commits r.name).length ∧ 10 ≤ r.file_count) := by omega
        simp [List.filter_cons, hneg]
      · rw [if_neg h, ih]
        have hpos : 5 ≤ (commits r.name).length ∧ 10 ≤ r.file_count := by omega
        simp [List.filter_cons, hpos]
  exact aux sources []

theorem getOnlyOwnerSources_mem (username : String) :
    ∀ (cs : List ContributorsEntry) (single : List String),
      getOnlyOwnerSources username cs = .ok single →
      ∀ n, n ∈ single ↔ ∃ obj ∈ cs, obj.repo = n ∧ obj.contributors = [username] := by
  intro cs
  induction cs with
  | nil =>
    intro single h n
    simp only [getOnlyOwnerSources] at h
    cases h
    simp
  | cons obj rest ih =>
    intro single h n
    cases hh : obj.contributors.head? with
    | none =>
      simp [getOnlyOwnerSources, hh] at h
    | some f =>
      cases hrec : getOnlyOwnerSources username rest with
      | error e =>
        simp [getOnlyOwnerSources, hh, hrec] at h
      | ok tail =>
        simp only [getOnlyOwnerSources, hh, hrec, Except.ok.injEq] at h
        have hcond_iff : (f = username ∧ obj.contributors.length = 1) ↔
            obj.contributors = [username] := by
          cases hc : obj.contributors with
          | nil =>
            rw [hc] at hh
            simp at hh
          | cons c cs2 =>
            rw [hc] at hh
            rw [List.head?_cons] at hh
            injection hh with hcf
            subst hcf
            constructor
            · rintro ⟨h1, h2⟩
              rw [List.length_cons] at h2
              have h3 : cs2 = [] := List.length_eq_zero.mp (by omega)
              rw [h3, h1]
            · intro h12
              injection h12 with e1 e2
              subst e2
              exact ⟨e1, rfl⟩
        by_cases hcond : f = username ∧ obj.contributors.length = 1
        · rw [if_pos hcond] at h
          subst h
          simp only [List.mem_cons]
          constructor
          · rintro (rfl | hn)
            · exact ⟨obj, Or.inl rfl, rfl, hcond_iff.mp hcond⟩
            · obtain ⟨o, ho, h1, h2⟩ := (ih tail hrec n).mp hn
              exact ⟨o, Or.inr ho, h1, h2⟩
          · rintro ⟨o, ho, h1, h2⟩
            rcases ho with rfl | ho2
            · exact Or.inl h1.symm
            · exact Or.inr ((ih tail hrec n).mpr ⟨o, ho2, h1, h2⟩)
        · rw [if_neg hcond] at h
          subst h
          rw [ih tail hrec n]
          constructor
          · rintro ⟨o, ho, h1, h2⟩
            exact ⟨o, List.mem_cons_of_mem _ ho, h1, h2⟩
          · rintro ⟨o, ho, h1, h2⟩
            rcases List.mem_cons.mp ho with rfl | ho2
            · exact absurd (hcond_iff.mpr h2) hcond
            · exact ⟨o, ho2, h1, h2⟩

theorem lookup_isSome_append (l l2 : List (String × RepoMetadata)) (n : String)
    (h : (l.lookup n).isSome) : ((l ++ l2).lookup n).isSome := by
  induction l with
  | nil => simp [List.lookup] at h
  | cons p ps ih =>
    cases p with
    | mk k v =>
      rw [List.cons_append]
      rw [List.lookup_cons] at h ⊢
      cases hb : n == k
      · rw [hb] at h
        exact ih h
      · rfl

theorem lookup_append_singleton_isSome (m : List (String × RepoMetadata)) (n : String)
    (v : RepoMetadata) : ((m ++ [(n, v)]).lookup n).isSome := by
  induction m with
  | nil => simp
  | cons p ps ih =>
    cases p with
    | mk k v2 =>
      rw [List.cons_append, List.lookup_cons]
      cases hb : n == k
      · exact ih
      · rfl

theorem lookup_map_name_isSome (selected : List RepoRecord)
    (f : RepoRecord → RepoMetadata) (n : String)
    (h : n ∈ selected.map (fun r => r.name)) :
    ((selected.map (fun r => (r.name, f r))).lookup n).isSome := by
  induction selected with
  | nil => simp at h
  | cons r rs ih =>
    rw [List.map_cons, List.lookup_cons]
    cases hb : n == r.name
    · rw [List.map_cons, List.mem_cons] at h
      rcases h with rfl | h2
      · rw [beq_self_eq_true] at hb
        cases hb
      · exact ih h2
    · rfl

theorem metaFold_lookup_mono (env : SelectorEnv) (names : List String) :
    ∀ (m : List (String × RepoMetadata)) (n : String), (m.lookup n).isSome →
      ((names.foldl
        (fun m repoName =>
          if (m.lookup repoName).isNone ∧ env.pathExists repoName then
            m ++ [(repoName,
              { contribution_files := env.contribOracle repoName
                stats := env.statsOracle repoName })]
          else m) m).lookup n).isSome := by
  induction names with
  | nil => intro m n h; exact h
  | cons x xs ih =>
    intro m n h
    simp only [List.foldl_cons]
    by_cases hc : (m.lookup x).isNone ∧ env.pathExists x
    · rw [if_pos hc]
      exact ih _ n (lookup_isSome_append _ _ _ h)
    · rw [if_neg hc]
      exact ih _ n h

theorem metaFold_lookup_covers (env : SelectorEnv) (names : List String) :
    ∀ (m : List (String × RepoMetadata)) (n : String), n ∈ names →
      env.pathExists n = true →
      ((names.foldl
        (fun m repoName =>
          if (m.lookup repoName).isNone ∧ env.pathExists repoName then
            m ++ [(repoName,
              { contribution_files := env.contribOracle repoName
                stats := env.statsOracle repoName })]
          else m) m).lookup n).isSome := by
  induction names with
  | nil =>
    intro m n h
    cases h
  | cons x xs ih =>
    intro m n hn hp
    simp only [List.foldl_cons]
    rcases List.mem_cons.mp hn with rfl | hn2
    · by_cases hc : (m.lookup n).isNone ∧ env.pathExists n
      · rw [if_pos hc]
        exact metaFold_lookup_mono env xs _ n (lookup_append_singleton_isSome m n _)
      · rw [if_neg hc]
        have hsome : (m.lookup n).isSome := by
          cases ho : m.lookup n with
          | none => exact absurd ⟨by simp [ho], hp⟩ hc
          | some v => simp [ho]
        exact metaFold_lookup_mono env xs m n hsome
    · by_cases hc : (m.lookup x).isNone ∧ env.pathExists x
      · rw [if_pos hc]
        exact ih _ n hn2 hp
      · rw [if_neg hc]
        exact ih _ n hn2 hp

theorem commitsToProcess_length_le (history : List String) :
    (commitsToProcess history).length ≤ 3 := by
  unfold commitsToProcess
  split_ifs <;> simp

theorem commitStep_good (g : GitOracle) (maxDiffLines : Nat) (filePath : String)
    (ctpLast : String) (prevContent : Option String) (commitInfo : String)
    (cd : CommitData) (prevAfter : Option String)
    (h : commitStep g maxDiffLines filePath ctpLast prevContent commitInfo =
      some (cd, prevAfter)) :
    cd.file = filePath ∧ pyStrip cd.changes ≠ "" ∧
      ∃ raw, g.showDiff filePath cd.sha = some raw ∧
        ¬((pySplitlines raw).length > maxDiffLines) ∧ cd.changes = cleanDiff raw := by
  simp only [commitStep] at h
  split at h
  · cases h
  next diffOutput hd =>
    split at h
    · cases h
    next h1 =>
      split at h
      · cases h
      next h2 =>
        split at h
        · split at h
          · cases h
          next fc hf =>
            simp only [Option.some.injEq, Prod.mk.injEq] at h
            obtain ⟨hcd, _⟩ := h
            subst hcd
            exact ⟨rfl, h2, diffOutput, hd, h1, rfl⟩
        · split at h
          · split at h
            · cases h
            next fc hf =>
              simp only [Option.some.injEq, Prod.mk.injEq] at h
              obtain ⟨hcd, _⟩ := h
              subst hcd
              exact ⟨rfl, h2, diffOutput, hd, h1, rfl⟩
          · simp only [Option.some.injEq, Prod.mk.injEq] at h
            obtain ⟨hcd, _⟩ := h
            subst hcd
            exact ⟨rfl, h2, diffOutput, hd, h1, rfl⟩

theorem commitStep_some_prev (g : GitOracle) (maxDiffLines : Nat) (filePath : String)
    (ctpLast : String) (c : String) (commitInfo : String)
    (cd : CommitData) (prevAfter : Option String)
    (h : commitStep g maxDiffLines filePath ctpLast (some c) commitInfo =
      some (cd, prevAfter)) :
    prevAfter = some c ∧ (commitInfo ≠ ctpLast → cd.content = none) := by
  simp only [commitStep] at h
  split at h
  · cases h
  next diffOutput hd =>
    split at h
    · cases h
    next h1 =>
      split at h
      · cases h
      next h2 =>
        split at h
        next hl =>
          split at h
          · cases h
          next fc hf =>
            simp only [Option.some.injEq, Prod.mk.injEq] at h
            obtain ⟨_, hprev⟩ := h
            exact ⟨hprev.symm, fun hne => absurd hl hne⟩
        next hl =>
          simp only [Option.some.injEq, Prod.mk.injEq] at h
          obtain ⟨hcd, hprev⟩ := h
          subst hcd
          exact ⟨hprev.symm, fun _ => rfl⟩

theorem commitStep_none_prev (g : GitOracle) (maxDiffLines : Nat) (filePath : String)
    (ctpLast : String) (commitInfo : String)
    (cd : CommitData) (prevAfter : Option String)
    (h : commitStep g maxDiffLines filePath ctpLast none commitInfo =
      some (cd, prevAfter)) :
    ∃ fc, prevAfter = some fc := by
  simp only [commitStep] at h
  split at h
  · cases h
  next diffOutput hd =>
    split at h
    · cases h
    next h1 =>
      split at h
      · cases h
      next h2 =>
        split at h
        · cases h
        next fc hf =>
          simp only [Option.some.injEq, Prod.mk.injEq] at h
          exact ⟨fc, h.2.symm⟩

theorem foldProcess_append (g : GitOracle) (n : Nat) (fp : String) (ctpLast : String) :
    ∀ (infos : List String) (st : Option String × List CommitData),
      ∃ tail, (infos.foldl (processCommit g n fp ctpLast) st).2 = st.2 ++ tail ∧
        tail.length ≤ infos.length ∧
        ∀ cd ∈ tail, cd.file = fp ∧ pyStrip cd.changes ≠ "" ∧
          ∃ raw, g.showDiff fp cd.sha = some raw ∧
            ¬((pySplitlines raw).length > n) ∧ cd.changes = cleanDiff raw := by
  intro infos
  induction infos with
  | nil =>
    intro st
    exact ⟨[], by simp, by simp, by simp⟩
  | cons info rest ih =>
    intro st
    rw [List.foldl_cons]
    cases hstep : commitStep g n fp ctpLast st.1 info with
    | none =>
      have hp : processCommit g n fp ctpLast st info = st := by
        unfold processCommit
        rw [hstep]
      rw [hp]
      obtain ⟨tail, h1, h2, h3⟩ := ih st
      exact ⟨tail, h1, le_trans h2 (by simp), h3⟩
    | some pair =>
      obtain ⟨cd, prevAfter⟩ := pair
      have hp : processCommit g n fp ctpLast st info = (prevAfter, st.2 ++ [cd]) := by
        unfold processCommit
        rw [hstep]
      rw [hp]
      obtain ⟨tail, h1, h2, h3⟩ := ih (prevAfter, st.2 ++ [cd])
      refine ⟨cd :: tail, ?_, ?_, ?_⟩
      · rw [h1]
        simp
      · simp only [List.length_cons]
        omega
      · intro x hx
        rcases List.mem_cons.mp hx with rfl | hx2
        · exact commitStep_good g n fp ctpLast st.1 info x prevAfter hstep
        · exact h3 x hx2

theorem sampleFile_good (g : GitOracle) (n : Nat) (fp : String) (history : List String) :
    (sampleFile g n fp history).length ≤ 3 ∧
    ∀ cd ∈ sampleFile g n fp history, cd.file = fp ∧ pyStrip cd.changes ≠ "" ∧
      ∃ raw, g.showDiff fp cd.sha = some raw ∧ ¬((pySplitlines raw).length > n) ∧
        cd.changes = cleanDiff raw := by
  obtain ⟨tail, h1, h2, h3⟩ := foldProcess_append g n fp
    ((commitsToProcess history).getLastD "") (commitsToProcess history)
    (none, [])
  have hs : sampleFile g n fp history = tail := by
    unfold sampleFile
    rw [h1]
    simp
  rw [hs]
  exact ⟨le_trans h2 (commitsToProcess_length_le history), h3⟩

theorem countP_samples_le (g : GitOracle) (n : Nat) (f : String) :
    ∀ (files : List FileHist), (files.map (fun fh => fh.path)).Nodup →
      ((files.map (fun fh => sampleFile g n fh.path fh.history)).flatten).countP
        (fun cd => decide (cd.file = f)) ≤ 3 := by
  intro files
  induction files with
  | nil =>
    intro _
    simp
  | cons fh fs ih =>
    intro hnd
    rw [List.map_cons, List.nodup_cons] at hnd
    rw [List.map_cons, List.flatten_cons, List.countP_append]
    by_cases hf : fh.path = f
    · have hrest : ((fs.map (fun fh => sampleFile g n fh.path fh.history)).flatten).countP
          (fun cd => decide (cd.file = f)) = 0 := by
        rw [List.countP_eq_zero]
        intro cd hcd
        obtain ⟨l, hl, hcdl⟩ := List.mem_flatten.mp hcd
        obtain ⟨fh2, hfh2, rfl⟩ := List.mem_map.mp hl
        have hfile : cd.file = fh2.path :=
          ((sampleFile_good g n fh2.path fh2.history).2 cd hcdl).1
        have hne : fh2.path ≠ f := by
          intro hcontra
          exact hnd.1 (by
            rw [hf]
            exact List.mem_map.mpr ⟨fh2, hfh2, hcontra⟩)
        simp [hfile, hne]
      have hhead : ((sampleFile g n fh.path fh.history).countP
          (fun cd => decide (cd.file = f))) ≤ 3 :=
        le_trans (List.countP_le_length _) (sampleFile_good g n fh.path fh.history).1
      omega
    · have hhead : ((sampleFile g n fh.path fh.history).countP
          (fun cd => decide (cd.file = f))) = 0 := by
        rw [List.countP_eq_zero]
        intro cd hcd
        have hfile : cd.file = fh.path :=
          ((sampleFile_good g n fh.path fh.history).2 cd hcd).1
        simp [hfile, hf]
      have := ih hnd.2
      omega

theorem getD_mem_of_lt {α : Type} [Inhabited α] :
    ∀ (l : List α) (j : Nat), j < l.length → l.getD j default ∈ l := by
  intro l
  induction l with
  | nil =>
    intro j h
    simp at h
  | cons a as ih =>
    intro j h
    cases j with
    | zero => simp
    | succ j2 =>
      rw [List.getD_cons_succ]
      exact List.mem_cons_of_mem _ (ih j2 (by simpa using h))

theorem getD_append_left {α : Type} [Inhabited α] :
    ∀ (l l2 : List α) (j : Nat), j < l.length →
      (l ++ l2).getD j default = l.getD j default := by
  intro l
  induction l with
  | nil =>
    intro l2 j h
    simp at h
  | cons a as ih =>
    intro l2 j h
    cases j with
    | zero => simp
    | succ j2 =>
      rw [List.cons_append, List.getD_cons_succ, List.getD_cons_succ]
      exact ih l2 j2 (by simpa using h)

theorem processCommit_eq_none (g : GitOracle) (n : Nat) (fp : String)
    (ctpLast : String) (st : Option String × List CommitData) (info : String)
    (h : commitStep g n fp ctpLast st.1 info = none) :
    processCommit g n fp ctpLast st info = st := by
  unfold processCommit
  rw [h]

theorem processCommit_eq_some (g : GitOracle) (n : Nat) (fp : String)
    (ctpLast : String) (st : Option String × List CommitData) (info : String)
    (cd : CommitData) (prevAfter : Option String)
    (h : commitStep g n fp ctpLast st.1 info = some (cd, prevAfter)) :
    processCommit g n fp ctpLast st info = (prevAfter, st.2 ++ [cd]) := by
  unfold processCommit
  rw [h]

theorem foldProcess_some_phase (g : GitOracle) (n : Nat) (fp : String)
    (ctpLast : String) :
    ∀ (infos : List String), (∀ x ∈ infos, x ≠ ctpLast) →
      ∀ (st : Option String × List CommitData) (c : String), st.1 = some c →
        ∃ tail, (infos.foldl (processCommit g n fp ctpLast) st).2 = st.2 ++ tail ∧
          (∀ cd ∈ tail, cd.content = none) ∧
          (infos.foldl (processCommit g n fp ctpLast) st).1 = some c := by
  intro infos
  induction infos with
  | nil =>
    intro _ st c h
    exact ⟨[], by simp, by simp, by simpa using h⟩
  | cons info rest ih =>
    intro hne st c h
    have hne2 : ∀ x ∈ rest, x ≠ ctpLast := fun x hx =>
      hne x (List.mem_cons_of_mem _ hx)
    rw [List.foldl_cons]
    cases hstep : commitStep g n fp ctpLast st.1 info with
    | none =>
      have hp : processCommit g n fp ctpLast st info = st := by
        unfold processCommit
        rw [hstep]
      rw [hp]
      exact ih hne2 st c h
    | some pair =>
      obtain ⟨cd, prevAfter⟩ := pair
      have hp : processCommit g n fp ctpLast st info = (prevAfter, st.2 ++ [cd]) := by
        unfold processCommit
        rw [hstep]
      rw [hp]
      rw [h] at hstep
      obtain ⟨hprev, hcontent⟩ :=
        commitStep_some_prev g n fp ctpLast c info cd prevAfter hstep
      obtain ⟨tail, h1, h2, h3⟩ :=
        ih hne2 (prevAfter, st.2 ++ [cd]) c (by simpa using hprev)
      refine ⟨cd :: tail, ?_, ?_, h3⟩
      · rw [h1]
        simp
      · intro x hx
        rcases List.mem_cons.mp hx with rfl | hx2
        · exact hcontent (hne info (List.mem_cons_self _ _))
        · exact h2 x hx2

theorem foldProcess_none_phase (g : GitOracle) (n : Nat) (fp : String)
    (ctpLast : String) :
    ∀ (infos : List String), (∀ x ∈ infos, x ≠ ctpLast) →
      ∀ (st : Option String × List CommitData), st.1 = none → st.2 = [] →
        (infos.foldl (processCommit g n fp ctpLast) st = st) ∨
        (∃ cd0 tail fc,
          (infos.foldl (processCommit g n fp ctpLast) st).2 = cd0 :: tail ∧
          (∀ cd ∈ tail, cd.content = none) ∧
          (infos.foldl (processCommit g n fp ctpLast) st).1 = some fc) := by
  intro infos
  induction infos with
  | nil =>
    intro _ st _ _
    exact Or.inl rfl
  | cons info rest ih =>
    intro hne st h1 h2
    have hne2 : ∀ x ∈ rest, x ≠ ctpLast := fun x hx =>
      hne x (List.mem_cons_of_mem _ hx)
    rw [List.foldl_cons]
    cases hstep : commitStep g n fp ctpLast st.1 info with
    | none =>
      have hp : processCommit g n fp ctpLast st info = st := by
        unfold processCommit
        rw [hstep]
      rw [hp]
      exact ih hne2 st h1 h2
    | some pair =>
      obtain ⟨cd, prevAfter⟩ := pair
      have hp : processCommit g n fp ctpLast st info = (prevAfter, st.2 ++ [cd]) := by
        unfold processCommit
        rw [hstep]
      rw [hp]
      rw [h1] at hstep
      obtain ⟨fc, hfc⟩ := commitStep_none_prev g n fp ctpLast info cd prevAfter hstep
      obtain ⟨tail, ht1, ht2, ht3⟩ :=
        foldProcess_some_phase g n fp ctpLast rest hne2 (prevAfter, st.2 ++ [cd]) fc
          (by simpa using hfc)
      refine Or.inr ⟨cd, tail, fc, ?_, ht2, ht3⟩
      rw [ht1, h2]
      simp

theorem sampleFile_middle_content (g : GitOracle) (n : Nat) (fp : String)
    (history : List String) (hnd : (commitsToProcess history).Nodup) :
    ∀ i, 0 < i → i + 1 < (sampleFile g n fp history).length →
      ((sampleFile g n fp history).getD i default).content = none := by
  intro i hi hi2
  by_cases hempty : commitsToProcess history = []
  · have hnil : sampleFile g n fp history = [] := by
      unfold sampleFile
      rw [hempty]
      rfl
    rw [hnil] at hi2
    simp at hi2
  · have hlastD : (commitsToProcess history).getLastD "" =
        (commitsToProcess history).getLast hempty := by
      rw [List.getLastD_eq_getLast?, List.getLast?_eq_getLast _ hempty]
      rfl
    have hsplitD : (commitsToProcess history).dropLast ++
        [(commitsToProcess history).getLastD ""] = commitsToProcess history := by
      rw [hlastD]
      exact List.dropLast_append_getLast hempty
    have hninit : ∀ x ∈ (commitsToProcess history).dropLast,
        x ≠ (commitsToProcess history).getLastD "" := by
      have hnd2 := hnd
      rw [← hsplitD, List.nodup_append] at hnd2
      intro x hx hcontra
      exact hnd2.2.2 hx (by
        rw [hcontra]
        exact List.mem_singleton.mpr rfl)
    set ctpLast := (commitsToProcess history).getLastD "" with hctpLast
    set S := List.foldl (processCommit g n fp ctpLast) (none, [])
      (commitsToProcess history).dropLast with hSdef
    have hfold : sampleFile g n fp history =
        (processCommit g n fp ctpLast S ctpLast).2 := by
      show (List.foldl (processCommit g n fp ctpLast)
          (none, []) (commitsToProcess history)).2 =
        (processCommit g n fp ctpLast S ctpLast).2
      rw [← hsplitD, List.foldl_append, List.foldl_cons, List.foldl_nil]
    rcases foldProcess_none_phase g n fp ctpLast
        (commitsToProcess history).dropLast hninit (none, []) rfl rfl with hS | hS
    · rw [← hSdef] at hS
      have hlen : (sampleFile g n fp history).length ≤ 1 := by
        rw [hfold, hS]
        cases hstep : commitStep g n fp ctpLast
            (none : Option String) ctpLast with
        | none =>
          rw [processCommit_eq_none g n fp ctpLast (none, []) ctpLast hstep]
          simp
        | some pair =>
          obtain ⟨cd, prevAfter⟩ := pair
          rw [processCommit_eq_some g n fp ctpLast (none, []) ctpLast cd prevAfter
            hstep]
          simp
      omega
    · obtain ⟨cd0, tail, fc, hS2, htail, hS1⟩ := hS
      rw [← hSdef] at hS2 hS1
      obtain ⟨j, rfl⟩ : ∃ j, i = j + 1 := ⟨i - 1, by omega⟩
      rw [hfold] at hi2 ⊢
      cases hstep : commitStep g n fp ctpLast S.1 ctpLast with
      | none =>
        have hlist : (processCommit g n fp ctpLast S ctpLast).2 = cd0 :: tail := by
          rw [processCommit_eq_none g n fp ctpLast S ctpLast hstep]
          exact hS2
        rw [hlist] at hi2 ⊢
        rw [List.getD_cons_succ]
        rw [List.length_cons] at hi2
        exact htail _ (getD_mem_of_lt tail j (by omega))
      | some pair =>
        obtain ⟨cdL, prevAfter⟩ := pair
        have hlist : (processCommit g n fp ctpLast S ctpLast).2 =
            cd0 :: (tail ++ [cdL]) := by
          rw [processCommit_eq_some g n fp ctpLast S ctpLast cdL prevAfter hstep]
          show S.2 ++ [cdL] = cd0 :: (tail ++ [cdL])
          rw [hS2]
          rfl
        rw [hlist] at hi2 ⊢
        rw [List.getD_cons_succ]
        simp only [List.length_cons, List.length_append, List.length_singleton,
          List.length_nil] at hi2
        rw [getD_append_left tail [cdL] j (by omega)]
        exact htail _ (getD_mem_of_lt tail j (by omega))

theorem filter_flatten_samples (g : GitOracle) (n : Nat) :
    ∀ (files : List FileHist), (files.map (fun x => x.path)).Nodup →
      ∀ fh ∈ files,
        ((files.map (fun x => sampleFile g n x.path x.history)).flatten).filter
            (fun cd => cd.file = fh.path) =
          sampleFile g n fh.path fh.history := by
  intro files
  induction files with
  | nil =>
    intro _ fh h
    cases h
  | cons a fs ih =>
    intro hnd fh hmem
    rw [List.map_cons, List.flatten_cons, List.filter_append]
    rw [List.map_cons, List.nodup_cons] at hnd
    rcases List.mem_cons.mp hmem with rfl | hmem2
    · have h1 : (sampleFile g n fh.path fh.history).filter
          (fun cd => cd.file = fh.path) = sampleFile g n fh.path fh.history :=
        List.filter_eq_self.mpr (fun cd hcd =>
          decide_eq_true ((sampleFile_good g n fh.path fh.history).2 cd hcd).1)
      have h2 : ((fs.map (fun x => sampleFile g n x.path x.history)).flatten).filter
          (fun cd => cd.file = fh.path) = [] := by
        rw [List.filter_eq_nil_iff]
        intro cd hcd
        obtain ⟨l, hl, hcdl⟩ := List.mem_flatten.mp hcd
        obtain ⟨fh2, hfh2, rfl⟩ := List.mem_map.mp hl
        have hfile : cd.file = fh2.path :=
          ((sampleFile_good g n fh2.path fh2.history).2 cd hcdl).1
        have hne : fh2.path ≠ fh.path := by
          intro hcontra
          exact hnd.1 (List.mem_map.mpr ⟨fh2, hfh2, hcontra⟩)
        simp [hfile, hne]
      rw [h1, h2, List.append_nil]
    · have hne : a.path ≠ fh.path := by
        intro hcontra
        exact hnd.1 (List.mem_map.mpr ⟨fh, hmem2, hcontra.symm⟩)
      have h1 : (sampleFile g n a.path a.history).filter
          (fun cd => cd.file = fh.path) = [] := by
        rw [List.filter_eq_nil_iff]
        intro cd hcd
        have hfile : cd.file = a.path :=
          ((sampleFile_good g n a.path a.history).2 cd hcd).1
        simp [hfile, hne]
      rw [h1, List.nil_append, ih hnd.2 fh hmem2]

theorem commitsByFile_grouped (g : GitOracle) (n : Nat) (files : List FileHist)
    (hnd : (files.map (fun x => x.path)).Nodup) (fh : FileHist) (hmem : fh ∈ files)
    (hsorted : List.Sorted (fun a b => lexLe a.date.data b.date.data = true)
      (sampleFile g n fh.path fh.history)) :
    commitsByFile g n files fh.path = sampleFile g n fh.path fh.history := by
  have hf : ((files.map (fun x => sampleFile g n x.path x.history)).flatten).filter
      (fun cd => cd.file = fh.path) = sampleFile g n fh.path fh.history :=
    filter_flatten_samples g n files hnd fh hmem
  have hperm : (commitsByFile g n files fh.path).Perm
      (sampleFile g n fh.path fh.history) := by
    unfold commitsByFile repoCommits
    rw [← hf]
    exact (List.perm_insertionSort _ _).filter _
  have hsubL : List.Sublist (sampleFile g n fh.path fh.history)
      ((files.map (fun x => sampleFile g n x.path x.history)).flatten) := by
    rw [← hf]
    exact List.filter_sublist _
  have hsub : List.Sublist (sampleFile g n fh.path fh.history)
      (repoCommits g n files) := by
    unfold repoCommits
    exact List.sublist_insertionSort hsorted hsubL
  have hSfil : (sampleFile g n fh.path fh.history).filter
      (fun cd => cd.file = fh.path) = sampleFile g n fh.path fh.history :=
    List.filter_eq_self.mpr (fun cd hcd =>
      decide_eq_true ((sampleFile_good g n fh.path fh.history).2 cd hcd).1)
  have hsub2 : List.Sublist (sampleFile g n fh.path fh.history)
      (commitsByFile g n files fh.path) := by
    unfold commitsByFile
    rw [← hSfil]
    exact hsub.filter _
  exact (hsub2.eq_of_length hperm.length_eq.symm).symm

/-! ## Claims -/

/-- C1: the name set returned by `select_repositories` is the deduplicated
union (set semantics by name) of the top-scored repository names and the
single-contributor repository names (entries whose contributor list is
exactly the target author); in particular every single-contributor
repository is selected regardless of score. -/
theorem selectRepositories_union (env : SelectorEnv) (username : String)
    (analyzed : List RepoRecord) (contributors : List ContributorsEntry)
    (single : List String)
    (hok : getOnlyOwnerSources username contributors = .ok single) :
    ∃ res, selectRepositories env username analyzed contributors = .ok res ∧
      res.1 =
        ((selectBestRepositories env.now analyzed 15).map (fun r => r.name)).toFinset ∪
          single.toFinset ∧
      (∀ n, n ∈ res.1 ↔
        (n ∈ (selectBestRepositories env.now analyzed 15).map (fun r => r.name) ∨
          ∃ obj ∈ contributors, obj.repo = n ∧ obj.contributors = [username])) ∧
      ∀ obj ∈ contributors, obj.contributors = [username] → obj.repo ∈ res.1 := by
  refine ⟨((((selectBestRepositories env.now analyzed 15).map
        (fun r => r.name)).toFinset ∪ single.toFinset),
      single.foldl
        (fun m repoName =>
          if (m.lookup repoName).isNone ∧ env.pathExists repoName then
            m ++ [(repoName,
              { contribution_files := env.contribOracle repoName
                stats := env.statsOracle repoName })]
          else m)
        ((selectBestRepositories env.now analyzed 15).map
          (fun r =>
            (r.name,
              { contribution_files := r.contribution_files
                stats := some r.stats })))),
    ?_, rfl, ?_, ?_⟩
  · unfold selectRepositories
    rw [hok]
  · intro n
    rw [Finset.mem_union, List.mem_toFinset, List.mem_toFinset,
      getOnlyOwnerSources_mem username contributors single hok n]
  · intro obj hobj hc
    exact Finset.mem_union_right _
      (List.mem_toFinset.mpr
        ((getOnlyOwnerSources_mem username contributors single hok obj.repo).mpr
          ⟨obj, hobj, rfl, hc⟩))

/-- C1 witness: one scored repository and one single-contributor entry. -/
theorem selectRepositories_union_witness :
    getOnlyOwnerSources "alice" [{ repo := "r", contributors := ["alice"] }] =
      .ok ["r"] ∧
    ∃ res, selectRepositories
        { now := 0, pathExists := fun _ => false, statsOracle := fun _ => none
          contribOracle := fun _ => [] } "alice" []
        [{ repo := "r", contributors := ["alice"] }] = .ok res ∧
      ∀ obj ∈ [({ repo := "r", contributors := ["alice"] } : ContributorsEntry)],
        obj.contributors = ["alice"] → obj.repo ∈ res.1 := by
  refine ⟨rfl, ?_⟩
  obtain ⟨res, h1, _, _, h4⟩ :=
    selectRepositories_union
      { now := 0, pathExists := fun _ => false, statsOracle := fun _ => none
        contribOracle := fun _ => [] } "alice" []
      [{ repo := "r", contributors := ["alice"] }] ["r"] rfl
  exact ⟨res, h1, h4⟩

/-- C7 (amended): every repository name in the returned selection that was
either among the scored selection or whose local checkout path exists has
an entry in the metadata map; the lazily computed entries are total
(a stats-computation failure degrades to the empty stats object rather
than raising).  A single-contributor repository whose checkout path does
not exist is selected without a metadata entry. -/
theorem selectRepositories_metadata_amended (env : SelectorEnv) (username : String)
    (analyzed : List RepoRecord) (contributors : List ContributorsEntry)
    (single : List String)
    (hok : getOnlyOwnerSources username contributors = .ok single) :
    ∃ res, selectRepositories env username analyzed contributors = .ok res ∧
      ∀ n ∈ res.1,
        (n ∈ (selectBestRepositories env.now analyzed 15).map (fun r => r.name) ∨
          env.pathExists n = true) →
        (res.2.lookup n).isSome := by
  refine ⟨((((selectBestRepositories env.now analyzed 15).map
        (fun r => r.name)).toFinset ∪ single.toFinset),
      single.foldl
        (fun m repoName =>
          if (m.lookup repoName).isNone ∧ env.pathExists repoName then
            m ++ [(repoName,
              { contribution_files := env.contribOracle repoName
                stats := env.statsOracle repoName })]
          else m)
        ((selectBestRepositories env.now analyzed 15).map
          (fun r =>
            (r.name,
              { contribution_files := r.contribution_files
                stats := some r.stats })))),
    ?_, ?_⟩
  · unfold selectRepositories
    rw [hok]
  · intro n hn hcov
    rcases hcov with hsel | hpath
    · exact metaFold_lookup_mono env single _ n (lookup_map_name_isSome _ _ n hsel)
    · rcases Finset.mem_union.mp hn with hA | hB
      · exact metaFold_lookup_mono env single _ n
          (lookup_map_name_isSome _ _ n (List.mem_toFinset.mp hA))
      · exact metaFold_lookup_covers env single _ n (List.mem_toFinset.mp hB) hpath

/-- C7 counterexample: with no scored repositories and one
single-contributor repository whose checkout path does not exist, the
repository is in the returned selection but the metadata map has no entry
for it, refuting the claimed invariant. -/
theorem selectRepositories_metadata_counterexample :
    ∃ res, selectRepositories
        { now := 0, pathExists := fun _ => false, statsOracle := fun _ => none
          contribOracle := fun _ => [] } "alice" []
        [{ repo := "r", contributors := ["alice"] }] = .ok res ∧
      "r" ∈ res.1 ∧ res.2.lookup "r" = none := by
  refine ⟨_, rfl, ?_, rfl⟩
  decide

/-- C7 witness: the amended theorem applied at a concrete input. -/
theorem selectRepositories_metadata_amended_witness :
    ∃ res, selectRepositories
        { now := 0, pathExists := fun _ => true, statsOracle := fun _ => none
          contribOracle := fun _ => [] } "alice" []
        [{ repo := "r", contributors := ["alice"] }] = .ok res ∧
      ∀ n ∈ res.1,
        (n ∈ (selectBestRepositories 0 [] 15).map (fun r => r.name) ∨
          (fun _ => true) n = true) →
        (res.2.lookup n).isSome :=
  selectRepositories_metadata_amended
    { now := 0, pathExists := fun _ => true, statsOracle := fun _ => none
      contribOracle := fun _ => [] } "alice" []
    [{ repo := "r", contributors := ["alice"] }] ["r"] rfl

/-- C2: for a successful blame with at least one blamed line, every
author's percentage is that author's blamed-line count divided by the total
blamed-line count times 100, and the percentages sum to exactly 100; on a
failed blame or with no blamed line the mapping is empty. -/
theorem getFileAuthorStats_percentages (stdout : String) :
    getFileAuthorStats false stdout = [] ∧
    (blamedAuthors (pySplitNl stdout) = [] → getFileAuthorStats true stdout = []) ∧
    (blamedAuthors (pySplitNl stdout) ≠ [] →
      (∀ p ∈ getFileAuthorStats true stdout,
        p.2 = ((blamedAuthors (pySplitNl stdout)).count p.1 : ℚ) /
          ((blamedAuthors (pySplitNl stdout)).length : ℚ) * 100) ∧
      ((getFileAuthorStats true stdout).map Prod.snd).sum = 100) := by
  refine ⟨rfl, ?_, ?_⟩
  · intro h
    simp [getFileAuthorStats, h]
  · intro h
    have hlen : (blamedAuthors (pySplitNl stdout)).length ≠ 0 := by
      simpa [List.length_eq_zero] using h
    have hunfold : getFileAuthorStats true stdout =
        (pyKeys (blamedAuthors (pySplitNl stdout))).map
          (fun a => (a, ((blamedAuthors (pySplitNl stdout)).count a : ℚ) /
            ((blamedAuthors (pySplitNl stdout)).length : ℚ) * 100)) := by
      simp [getFileAuthorStats, hlen]
    constructor
    · intro p hp
      rw [hunfold] at hp
      obtain ⟨a, _, rfl⟩ := List.mem_map.mp hp
      rfl
    · rw [hunfold]
      set A := blamedAuthors (pySplitNl stdout) with hA
      have hts : (pyKeys A).toFinset = A.toFinset := by
        ext a
        simp [List.mem_toFinset, pyKeys_mem]
      have hQ : (A.length : ℚ) ≠ 0 := by exact_mod_cast hlen
      calc (((pyKeys A).map
              (fun a => (a, ((A.count a : ℚ) / (A.length : ℚ)) * 100))).map Prod.snd).sum
          = ((pyKeys A).map (fun a => ((A.count a : ℚ) / (A.length : ℚ)) * 100)).sum := by
            rw [List.map_map]
            rfl
        _ = ∑ a in (pyKeys A).toFinset, ((A.count a : ℚ) / (A.length : ℚ)) * 100 :=
            (List.sum_toFinset _ (pyKeys_nodup A)).symm
        _ = ∑ a in A.toFinset, ((A.count a : ℚ) / (A.length : ℚ)) * 100 := by rw [hts]
        _ = (∑ a in A.toFinset, (A.count a : ℚ)) / (A.length : ℚ) * 100 := by
            rw [Finset.sum_div, Finset.sum_mul]
        _ = (A.length : ℚ) / (A.length : ℚ) * 100 := by
            congr 2
            rw [← Nat.cast_sum, List.sum_toFinset_count_eq_length]
        _ = 100 := by rw [div_self hQ, one_mul]

/-- C2 witness: a concrete blame output with three blamed lines by two
authors. -/
theorem getFileAuthorStats_percentages_witness :
    blamedAuthors (pySplitNl "author alice\nauthor bob\nauthor alice\n") ≠ [] ∧
    ((getFileAuthorStats true "author alice\nauthor bob\nauthor alice\n").map
      Prod.snd).sum = 100 :=
  ⟨by decide,
    ((getFileAuthorStats_percentages "author alice\nauthor bob\nauthor alice\n").2.2
      (by decide)).2⟩

/-- C3: holding the other inputs fixed, the total repository score is
monotonically non-decreasing in `commits_per_day` and monotonically
non-increasing in `days_since_last_commit`. -/
theorem scoreFromParts_monotone (d d₁ d₂ : Int) (cc : Nat) (cpd cpd₁ cpd₂ : ℚ)
    (files : List ContributionFile) (hc : cpd₁ ≤ cpd₂) (hd : d₁ ≤ d₂) :
    scoreFromParts d cc cpd₁ files ≤ scoreFromParts d cc cpd₂ files ∧
      scoreFromParts d₂ cc cpd files ≤ scoreFromParts d₁ cc cpd files := by
  unfold scoreFromParts
  constructor
  · have hact : (cc : ℚ) * 2 + cpd₁ * 10 ≤ (cc : ℚ) * 2 + cpd₂ * 10 := by
      have := mul_le_mul_of_nonneg_right hc (by norm_num : (0:ℚ) ≤ 10)
      linarith
    exact add_le_add (add_le_add le_rfl (min_le_min le_rfl hact)) le_rfl
  · have hcast : (d₁ : ℚ) ≤ (d₂ : ℚ) := by exact_mod_cast hd
    have hrec : 35 - (d₂ : ℚ) / 30 ≤ 35 - (d₁ : ℚ) / 30 := by linarith
    exact add_le_add (add_le_add (max_le_max le_rfl hrec) le_rfl) le_rfl

/-- C3 witness: the monotonicity theorem applied at concrete inputs. -/
theorem scoreFromParts_monotone_witness :
    scoreFromParts 0 1 (1 : ℚ) [] ≤ scoreFromParts 0 1 (2 : ℚ) [] ∧
      scoreFromParts 7 1 (1 : ℚ) [] ≤ scoreFromParts 0 1 (1 : ℚ) [] :=
  scoreFromParts_monotone 0 0 7 1 1 1 2 [] (by norm_num) (by norm_num)

/-- C4: when the local git-log query succeeds and the merged timestamp pool
is nonempty, the returned stats carry the minimum and maximum timestamp,
the total (not deduplicated) timestamp count, the day-span plus one (hence
at least 1) as `active_days`, and `commit_count / active_days` as
`commits_per_day`; when the local query fails the result is empty. -/
theorem getRepositoryStats_spec (localTs feedTs : List Int) :
    getRepositoryStats false localTs feedTs = none ∧
    (localTs ++ feedTs ≠ [] →
      ∃ s, getRepositoryStats true localTs feedTs = some s ∧
        s.first_commit ∈ localTs ++ feedTs ∧
        (∀ x ∈ localTs ++ feedTs, s.first_commit ≤ x) ∧
        s.last_commit ∈ localTs ++ feedTs ∧
        (∀ x ∈ localTs ++ feedTs, x ≤ s.last_commit) ∧
        s.commit_count = localTs.length + feedTs.length ∧
        s.active_days = Int.fdiv (s.last_commit - s.first_commit) 86400 + 1 ∧
        1 ≤ s.active_days ∧
        s.commits_per_day = (s.commit_count : ℚ) / (s.active_days : ℚ)) := by
  refine ⟨rfl, ?_⟩
  intro hne
  cases hts : localTs ++ feedTs with
  | nil => exact absurd hts hne
  | cons t rest =>
    have hmin := foldlMin_mem rest t
    have hmax := foldlMax_mem rest t
    have hfl : rest.foldl min t ≤ rest.foldl max t :=
      le_foldlMax rest t _ hmin
    have hper : 0 ≤ Int.fdiv (rest.foldl max t - rest.foldl min t) 86400 :=
      Int.fdiv_nonneg (by linarith) (by norm_num)
    have hact : (1 : Int) ≤ Int.fdiv (rest.foldl max t - rest.foldl min t) 86400 + 1 := by
      linarith
    have hmaxeq : max (Int.fdiv (rest.foldl max t - rest.foldl min t) 86400 + 1) 1 =
        Int.fdiv (rest.foldl max t - rest.foldl min t) 86400 + 1 :=
      max_eq_left hact
    refine ⟨{ first_commit := rest.foldl min t
              last_commit := rest.foldl max t
              commit_count := (t :: rest).length
              commits_per_day := (((t :: rest).length : Nat) : ℚ) /
                ((Int.fdiv (rest.foldl max t - rest.foldl min t) 86400 + 1 : Int) : ℚ)
              active_days := Int.fdiv (rest.foldl max t - rest.foldl min t) 86400 + 1 },
        ?_, ?_, ?_, ?_, ?_, ?_, ?_, ?_, ?_⟩
    · have hun : getRepositoryStats true localTs feedTs =
          (match localTs ++ feedTs with
            | [] => none
            | u :: us =>
              some { first_commit := us.foldl min u
                     last_commit := us.foldl max u
                     commit_count := (localTs ++ feedTs).length
                     commits_per_day := (((localTs ++ feedTs).length : Nat) : ℚ) /
                       ((max (Int.fdiv (us.foldl max u - us.foldl min u) 86400 + 1) 1 :
                          Int) : ℚ)
                     active_days :=
                       Int.fdiv (us.foldl max u - us.foldl min u) 86400 + 1 }) := rfl
      rw [hun, hts]
      simp only [hmaxeq]
    · exact hmin
    · exact fun x hx => foldlMin_le rest t x hx
    · exact hmax
    · exact fun x hx => le_foldlMax rest t x hx
    · show (t :: rest).length = localTs.length + feedTs.length
      rw [← List.length_append, hts]
    · rfl
    · exact hact
    · rfl

/-- C4 witness: two timestamps, one from each source. -/
theorem getRepositoryStats_spec_witness :
    ([100, 86600] : List Int) ≠ [] ∧
    ∃ s, getRepositoryStats true [100] [86600] = some s ∧ 1 ≤ s.active_days := by
  refine ⟨by decide, ?_⟩
  obtain ⟨s, h1, _, _, _, _, _, _, h8, _⟩ :=
    (getRepositoryStats_spec [100] [86600]).2 (by decide)
  exact ⟨s, h1, h8⟩

/-- C9: a repository is selected as a temporal-analysis target exactly when
its commit-feed entry has at least 5 records and its reported file count is
at least 10; in particular every repository below either threshold is
excluded. -/
theorem selectBestTargets_thresholds (sources : List SourceRepo)
    (commits : String → List Int)
    (hnd : (sources.map (fun r => r.name)).Nodup) (r : SourceRepo) (hr : r ∈ sources) :
    r.name ∈ selectBestTargets sources commits ↔
      5 ≤ (commits r.name).length ∧ 10 ≤ r.file_count := by
  rw [selectBestTargets_eq]
  constructor
  · intro h
    obtain ⟨r', hr', hname⟩ := List.mem_map.mp h
    have hr'src : r' ∈ sources := List.mem_of_mem_filter hr'
    have heq : r' = r := List.inj_on_of_nodup_map hnd hr'src hr hname
    subst heq
    simpa using List.of_mem_filter hr'
  · intro h
    exact List.mem_map.mpr ⟨r, List.mem_filter.mpr ⟨hr, by simpa using h⟩, rfl⟩

/-- C9 witness: a repository meeting both thresholds is a target, one below
the commit threshold is not. -/
theorem selectBestTargets_thresholds_witness :
    ("a" ∈ selectBestTargets [⟨"a", 10⟩, ⟨"b", 10⟩]
      (fun n => if n = "a" then [0, 0, 0, 0, 0] else [0])) ∧
    ¬ ("b" ∈ selectBestTargets [⟨"a", 10⟩, ⟨"b", 10⟩]
      (fun n => if n = "a" then [0, 0, 0, 0, 0] else [0])) := by
  constructor
  · exact (selectBestTargets_thresholds _ _ (by decide) ⟨"a", 10⟩
      (by decide)).mpr (by decide)
  · intro hmem
    have := (selectBestTargets_thresholds _ _ (by decide) ⟨"b", 10⟩
      (by decide)).mp hmem
    revert this
    decide

theorem maxByFold_mem (f : Nat → Nat) (ks : List Nat) : ∀ (k : Nat),
    ks.foldl (fun acc x => if f x > f acc then x else acc) k ∈ k :: ks := by
  induction ks with
  | nil => intro k; simp
  | cons b bs ih =>
    intro k
    simp only [List.foldl_cons]
    by_cases hb : f b > f k
    · rw [if_pos hb]
      exact List.mem_cons_of_mem _ (ih b)
    · rw [if_neg hb]
      rcases List.mem_cons.mp (ih k) with h | h
      · rw [h]; exact List.mem_cons_self _ _
      · exact List.mem_cons_of_mem _ (List.mem_cons_of_mem _ h)

theorem le_maxByFold (f : Nat → Nat) (ks : List Nat) : ∀ (k x : Nat), x ∈ k :: ks →
    f x ≤ f (ks.foldl (fun acc x => if f x > f acc then x else acc) k) := by
  induction ks with
  | nil =>
    intro k x hx
    simp only [List.mem_singleton] at hx
    simp [hx]
  | cons b bs ih =>
    intro k x hx
    simp only [List.foldl_cons]
    by_cases hb : f b > f k
    · rw [if_pos hb]
      rcases List.mem_cons.mp hx with rfl | hx2
      · exact le_trans (le_of_lt hb) (ih b b (List.mem_cons_self _ _))
      · exact ih b x hx2
    · rw [if_neg hb]
      rcases List.mem_cons.mp hx with rfl | hx2
      · exact ih x x (List.mem_cons_self _ _)
      · rcases List.mem_cons.mp hx2 with rfl | hx3
        · exact le_trans (le_of_not_lt hb) (ih k k (List.mem_cons_self _ _))
        · exact ih k x (List.mem_cons_of_mem _ hx3)

theorem tzHint_eq_claimBand (p : Nat) : tzHintOfPeak p = claimTimezoneBand p := by
  unfold tzHintOfPeak claimTimezoneBand specTzBands
  by_cases h1 : 4 ≤ p ∧ p ≤ 8 <;> by_cases h2 : 8 ≤ p ∧ p ≤ 12 <;>
    by_cases h3 : 12 ≤ p ∧ p ≤ 16 <;> by_cases h4 : 16 ≤ p ∧ p ≤ 20 <;>
      simp [List.find?, h1, h2, h3, h4]

/-- C8: for every nonempty timestamp list, the timezone hint equals the
spec's band table applied to the peak hour (first matching band of 04–08,
08–12, 12–16, 16–20 in listed order, `"unclear"` outside all), and the
peak hour is a most frequent commit hour. -/
theorem activityPatterns_timezone (ts : List Nat) (hne : ts ≠ []) :
    (analyzeActivityPatterns ts).frequency.timezone_hint =
      claimTimezoneBand (peakHour (sortedHoursOf ts)) ∧
    ∀ h ∈ sortedHoursOf ts,
      (sortedHoursOf ts).count h ≤ (sortedHoursOf ts).count (peakHour (sortedHoursOf ts)) := by
  constructor
  · have hproj : (analyzeActivityPatterns ts).frequency.timezone_hint =
        tzHintOfPeak (peakHour (sortedHoursOf ts)) := by
      unfold analyzeActivityPatterns
      rw [if_neg hne]
    rw [hproj, tzHint_eq_claimBand]
  · intro h hh
    have hkey : h ∈ pyKeysNat (sortedHoursOf ts) := by
      rw [pyKeysNat, keysFold_mem]
      simp [hh]
    unfold peakHour pyMaxBy
    cases hk : pyKeysNat (sortedHoursOf ts) with
    | nil =>
      rw [hk] at hkey
      cases hkey
    | cons k ks =>
      rw [hk] at hkey
      exact le_maxByFold (fun x => (sortedHoursOf ts).count x) ks k h hkey

/-- C8 witness: two commits in the 09:00 UTC hour. -/
theorem activityPatterns_timezone_witness :
    ([32400, 34200] : List Nat) ≠ [] ∧
    (analyzeActivityPatterns [32400, 34200]).frequency.timezone_hint =
      claimTimezoneBand (peakHour (sortedHoursOf [32400, 34200])) :=
  ⟨by decide, (activityPatterns_timezone [32400, 34200] (by decide)).1⟩

/-- C5: for every core file, the per-file sample list in the
`_get_commit_contents` output has at most 3 records; no record has an
empty cleaned diff; and every record stems from a raw `git show` diff of
at most `maxDiffLines` lines (default 100), its `changes` field being the
cleaning of that full raw diff (commits with larger diffs are skipped
entirely, not truncated). -/
theorem commitsByFile_bounds (g : GitOracle) (n : Nat) (files : List FileHist)
    (hnd : (files.map (fun fh => fh.path)).Nodup) (f : String) :
    (commitsByFile g n files f).length ≤ 3 ∧
    ∀ cd ∈ commitsByFile g n files f, pyStrip cd.changes ≠ "" ∧
      ∃ raw, g.showDiff cd.file cd.sha = some raw ∧
        (pySplitlines raw).length ≤ n ∧ cd.changes = cleanDiff raw := by
  constructor
  · unfold commitsByFile repoCommits
    rw [← List.countP_eq_length_filter]
    rw [(List.perm_insertionSort _ _).countP_eq]
    exact countP_samples_le g n f files hnd
  · intro cd hcd
    have hmem : cd ∈
        (files.map (fun fh => sampleFile g n fh.path fh.history)).flatten := by
      have h1 : cd ∈ repoCommits g n files := List.mem_of_mem_filter hcd
      unfold repoCommits at h1
      exact (List.mem_insertionSort _).mp h1
    obtain ⟨l, hl, hcdl⟩ := List.mem_flatten.mp hmem
    obtain ⟨fh2, hfh2, rfl⟩ := List.mem_map.mp hl
    obtain ⟨hfile, hstrip, raw, hraw, hlen, hch⟩ :=
      (sampleFile_good g n fh2.path fh2.history).2 cd hcdl
    exact ⟨hstrip, raw, by rw [hfile]; exact hraw, by omega, hch⟩

/-- C5 witness: the bound applied at a concrete repository sample. -/
theorem commitsByFile_bounds_witness :
    (commitsByFile gC 100 [{ path := "f", history := historyC }] "f").length ≤ 3 :=
  (commitsByFile_bounds gC 100 [{ path := "f", history := historyC }]
    (by decide) "f").1

/-- C6 (amended): for every core file of a repository (core-file paths
distinct, as dict keys are), when that file's sampled records' date
strings are already non-decreasing in sampling order (the chronological
case) and its sampled history lines are distinct, the file's grouped list
in the `_get_commit_contents` output — the restriction of the globally
date-sorted record list to that file — is exactly its sample order, and
full file content appears only on its first and last entries; every
middle entry carries diff only.  When the dates are not monotone along
the sampling order, the date sort can move a content-bearing sample into
a middle position (see the counterexample). -/
theorem commitsByFile_content_first_last (g : GitOracle) (n : Nat)
    (files : List FileHist) (hnd : (files.map (fun x => x.path)).Nodup)
    (fh : FileHist) (hmem : fh ∈ files)
    (hndc : (commitsToProcess fh.history).Nodup)
    (hsorted : List.Sorted (fun a b => lexLe a.date.data b.date.data = true)
      (sampleFile g n fh.path fh.history)) :
    commitsByFile g n files fh.path = sampleFile g n fh.path fh.history ∧
    ∀ i, 0 < i → i + 1 < (commitsByFile g n files fh.path).length →
      ((commitsByFile g n files fh.path).getD i default).content = none := by
  have heq := commitsByFile_grouped g n files hnd fh hmem hsorted
  refine ⟨heq, ?_⟩
  rw [heq]
  exact sampleFile_middle_content g n fh.path fh.history hndc

/-- C6 counterexample: with the non-monotone dates of `historyC` (middle
sampled commit dated after the last), the date sort puts the
content-bearing last sample in the middle of the file's 3-entry list —
full content on the middle entry, none on the last. -/
theorem commitsByFile_middle_content_counterexample :
    (commitsByFile gC 100 [{ path := "f", history := historyC }] "f").length = 3 ∧
    ((commitsByFile gC 100 [{ path := "f", history := historyC }] "f").getD 1
      default).content = some "X" ∧
    ((commitsByFile gC 100 [{ path := "f", history := historyC }] "f").getD 2
      default).content = none := by
  refine ⟨rfl, rfl, rfl⟩

/-- C6 witness: the amended theorem at a two-core-file repository whose
first file has monotone dates (the second file's dates are unconstrained). -/
theorem commitsByFile_content_first_last_witness :
    commitsByFile gC 100
        [{ path := "f", history := historyS }, { path := "g", history := historyC }]
        "f" =
      sampleFile gC 100 "f" historyS :=
  (commitsByFile_content_first_last gC 100
    [{ path := "f", history := historyS }, { path := "g", history := historyC }]
    (by decide) { path := "f", history := historyS } (by decide) (by decide)
    (by decide)).1

/-- C10: a report with a contributors entry whose contributor list is empty
makes `select_repositories` evaluate `obj["contributors"][0]` on an empty
list: the `IndexError` propagates instead of a selection being returned. -/
theorem selectRepositories_indexError :
    selectRepositories
      { now := 0, pathExists := fun _ => false, statsOracle := fun _ => none
        contribOracle := fun _ => [] }
      "alice" [] [{ repo := "r", contributors := [] }] =
      .error "IndexError: list index out of range" := rfl

end Stylometry
